import Mathlib

/-!
A shallow embedding of `src/data_structures/linkedlist.rs`, a doubly linked
list built from `Rc<RefCell<Box<Node<T>>>>` links.  The `Rc`-heap is embedded
as an append-only address store `store : List (Node α)`; a Rust
`Link<T> = Option<Rc<RefCell<Box<Node<T>>>>>` becomes an `Option Nat` address
into that store.  The payload `Rc<T>` handle returned by `pop`, `pop_front`
and the iterator becomes the payload value itself.

A Rust panic (an `unwrap` of `None`, or a borrow of a dangling link, which
`Rc` rules out but the address model must account for) is embedded as the
`none` result of the operation; a completed operation returns `some`.
-/

set_option autoImplicit false

universe u

variable {α : Type u}

/-- Embeds `struct Node<T> { data: Rc<T>, prev: Link<T>, next: Link<T> }`:
one payload and two nullable neighbor links (addresses into the store). -/
structure Node (α : Type u) where
  data : α
  prev : Option Nat
  next : Option Nat
  deriving Repr, DecidableEq

/-- Embeds `struct LinkedList<T> { head: Link<T>, tail: Link<T>, len: usize }`
together with the `Rc` heap the links point into. -/
structure LinkedList (α : Type u) where
  store : List (Node α)
  head : Option Nat
  tail : Option Nat
  len : Nat
  deriving Repr, DecidableEq

namespace LinkedList

/-- Embeds `LinkedList::new`: `{ head: None, tail: None, len: 0 }`. -/
def new : LinkedList α :=
  { store := [], head := none, tail := none, len := 0 }

/-- Embeds `LinkedList::push`.  The fresh `Node::new_link(data)` allocation is
appending `{data, prev: None, next: None}` at address `store.length`.  The
result is `none` exactly when the Rust body would panic (the
`self.tail.as_ref().unwrap()` on a `None` tail, reachable only from states the
public API cannot produce). -/
def push (l : LinkedList α) (data : α) : Option (LinkedList α) :=
  let addr := l.store.length
  let store1 := l.store ++ [{ data := data, prev := none, next := none }]
  -- `self.len += 1` happens unconditionally before the branch
  if l.head.isNone && l.tail.isNone then
    -- empty-list case: head and tail both become the new node
    some { store := store1, head := some addr, tail := some addr, len := l.len + 1 }
  else
    match l.tail with
    | none => none -- `self.tail.as_ref().unwrap()` panics
    | some t =>
      match store1[t]? with
      | none => none -- dangling link: `borrow_mut` has no node
      | some tn =>
        -- `self.tail...set_next(&new_node)`
        let store2 := store1.set t { tn with next := some addr }
        match store2[addr]? with
        | none => none
        | some nn =>
          -- `new_node...set_prev(&self.tail)` (tail still the old tail here)
          let store3 := store2.set addr { nn with prev := some t }
          some { store := store3, head := l.head, tail := some addr, len := l.len + 1 }

/-- Embeds `LinkedList::push_front`, symmetric to `push` on the head end. -/
def push_front (l : LinkedList α) (data : α) : Option (LinkedList α) :=
  let addr := l.store.length
  let store1 := l.store ++ [{ data := data, prev := none, next := none }]
  if l.head.isNone && l.tail.isNone then
    some { store := store1, head := some addr, tail := some addr, len := l.len + 1 }
  else
    match l.head with
    | none => none -- `self.head.as_ref().unwrap()` panics
    | some h =>
      match store1[h]? with
      | none => none
      | some hn =>
        -- `self.head...set_prev(&new_node)`
        let store2 := store1.set h { hn with prev := some addr }
        match store2[addr]? with
        | none => none
        | some nn =>
          -- `new_node...set_next(&self.head)` (head still the old head here)
          let store3 := store2.set addr { nn with next := some h }
          some { store := store3, head := some addr, tail := l.tail, len := l.len + 1 }

/-- Embeds `LinkedList::pop`.  Outer `none` is a panic; a completed call
returns the Rust `Option<Rc<T>>` result paired with the new state.  Note the
body takes `self.tail = old_tail.prev` and then immediately does
`self.tail.as_ref().unwrap()`, which panics when the popped node was the only
one (its `prev` is `None`). -/
def pop (l : LinkedList α) : Option (Option α × LinkedList α) :=
  if l.head.isNone && l.tail.isNone then
    some (none, l) -- empty list: return None, state untouched
  else
    match l.tail with
    | none => none -- `old_tail.as_ref().unwrap()` panics
    | some t =>
      match l.store[t]? with
      | none => none
      | some tn =>
        -- `self.tail = old_tail...get_prev()`
        match tn.prev with
        | none => none -- `self.tail.as_ref().unwrap()` on the new None tail panics
        | some t2 =>
          match l.store[t2]? with
          | none => none
          | some t2n =>
            -- `self.tail...set_next(&None)`
            let store2 := l.store.set t2 { t2n with next := none }
            -- `old_tail...get_data()`, `self.len -= 1`
            some (some tn.data,
              { store := store2, head := l.head, tail := some t2, len := l.len - 1 })

/-- Embeds `LinkedList::pop_front`, symmetric to `pop` on the head end;
it panics the same way when the popped node was the only one. -/
def pop_front (l : LinkedList α) : Option (Option α × LinkedList α) :=
  if l.head.isNone && l.tail.isNone then
    some (none, l)
  else
    match l.head with
    | none => none
    | some h =>
      match l.store[h]? with
      | none => none
      | some hn =>
        -- `self.head = old_head...get_next()`
        match hn.next with
        | none => none -- `self.head.as_ref().unwrap()` on the new None head panics
        | some h2 =>
          match l.store[h2]? with
          | none => none
          | some h2n =>
            -- `self.head...set_prev(&None)`
            let store2 := l.store.set h2 { h2n with prev := none }
            some (some hn.data,
              { store := store2, head := some h2, tail := l.tail, len := l.len - 1 })

/-- Embeds `LinkedList::is_empty`: `self.head.is_none() && self.tail.is_none()`. -/
def is_empty (l : LinkedList α) : Bool :=
  l.head.isNone && l.tail.isNone

end LinkedList

/-- Embeds `struct LinkedListIter<T> { cursor: Link<T> }`; it carries the heap
its cursor points into. -/
structure LinkedListIter (α : Type u) where
  store : List (Node α)
  cursor : Option Nat
  deriving Repr, DecidableEq

/-- Embeds `LinkedList::iter`: a cursor initialized at `head`. -/
def LinkedList.iter (l : LinkedList α) : LinkedListIter α :=
  { store := l.store, cursor := l.head }

/-- Embeds `IntoIterator::into_iter for LinkedList`, whose body is
`self.iter()`. -/
def LinkedList.into_iter (l : LinkedList α) : LinkedListIter α :=
  l.iter

/-- Embeds `Iterator::next for LinkedListIter`.  Outer `none` is a panic
(borrow of a dangling cursor, impossible under `Rc`); a completed call returns
the yielded `Option<Rc<T>>` with the advanced iterator. -/
def LinkedListIter.next (it : LinkedListIter α) : Option (Option α × LinkedListIter α) :=
  match it.cursor with
  | none => some (none, it) -- `self.cursor.as_ref()?`: exhausted
  | some a =>
    match it.store[a]? with
    | none => none
    | some n => some (some n.data, { it with cursor := n.next })

/-- Runs `next` until it yields `None` or `fuel` runs out, collecting the
yielded values; `none` means a call panicked or the fuel ran out before the
iterator finished. -/
def LinkedListIter.collect (fuel : Nat) (it : LinkedListIter α) :
    Option (List α × LinkedListIter α) :=
  match fuel with
  | 0 => if it.cursor.isNone then some ([], it) else none
  | Nat.succ f =>
    match it.next with
    | none => none
    | some (none, it') => some ([], it')
    | some (some v, it') =>
      match LinkedListIter.collect f it' with
      | none => none
      | some (vs, itf) => some (v :: vs, itf)

/-- Pushes the values of `vs` in order with `push`, propagating panics. -/
def LinkedList.pushAll (l : LinkedList α) (vs : List α) : Option (LinkedList α) :=
  match vs with
  | [] => some l
  | v :: rest =>
    match l.push v with
    | none => none
    | some l' => l'.pushAll rest

/-- Pushes the values of `vs` in order with `push_front`, propagating panics. -/
def LinkedList.pushFrontAll (l : LinkedList α) (vs : List α) : Option (LinkedList α) :=
  match vs with
  | [] => some l
  | v :: rest =>
    match l.push_front v with
    | none => none
    | some l' => l'.pushFrontAll rest

/-- Calls `pop` `n` times in sequence, collecting the returned options;
`none` means some call panicked. -/
def LinkedList.popN (l : LinkedList α) (n : Nat) :
    Option (List (Option α) × LinkedList α) :=
  match n with
  | 0 => some ([], l)
  | Nat.succ k =>
    match l.pop with
    | none => none
    | some (r, l') =>
      match l'.popN k with
      | none => none
      | some (rs, lf) => some (r :: rs, lf)

/-- Calls `pop_front` `n` times in sequence, collecting the returned options. -/
def LinkedList.popFrontN (l : LinkedList α) (n : Nat) :
    Option (List (Option α) × LinkedList α) :=
  match n with
  | 0 => some ([], l)
  | Nat.succ k =>
    match l.pop_front with
    | none => none
    | some (r, l') =>
      match l'.popFrontN k with
      | none => none
      | some (rs, lf) => some (r :: rs, lf)

/-- The container states the program can actually construct: `LinkedList`'s
fields are private in the source, so every value arises from `new` followed by
completed public mutating operations (`len`, `is_empty` and `iter` do not
change the state). -/
inductive Reachable : LinkedList α → Prop
  | new : Reachable LinkedList.new
  | push {l l' : LinkedList α} {v : α} :
      Reachable l → l.push v = some l' → Reachable l'
  | push_front {l l' : LinkedList α} {v : α} :
      Reachable l → l.push_front v = some l' → Reachable l'
  | pop {l l' : LinkedList α} {r : Option α} :
      Reachable l → l.pop = some (r, l') → Reachable l'
  | pop_front {l l' : LinkedList α} {r : Option α} :
      Reachable l → l.pop_front = some (r, l') → Reachable l'

/-! ## Representation predicate

`lseg store p cur q d ps` says: starting at link `cur`, whose first node's
`prev` link must equal `p`, following `next` traverses exactly the
(address, payload) pairs of `ps`, leaving the running previous-address `q`
and the running cursor `d`.  A whole well-formed list is
`lseg store none head tail none ps`: the head node's `prev` is `none`, the
tail is the last traversed address, and the last node's `next` is `none`. -/

def lseg (store : List (Node α)) :
    Option Nat → Option Nat → Option Nat → Option Nat → List (Nat × α) → Prop
  | p, cur, q, d, [] => p = q ∧ cur = d
  | p, cur, q, d, x :: rest =>
      cur = some x.1 ∧ ∃ n, store[x.1]? = some n ∧ n.data = x.2 ∧ n.prev = p ∧
        lseg store (some x.1) n.next q d rest

theorem lseg_nil {store : List (Node α)} {p cur q d : Option Nat} :
    lseg store p cur q d [] ↔ p = q ∧ cur = d := Iff.rfl

theorem lseg_cons {store : List (Node α)} {p cur q d : Option Nat} {x : Nat × α}
    {rest : List (Nat × α)} :
    lseg store p cur q d (x :: rest) ↔
      cur = some x.1 ∧ ∃ n, store[x.1]? = some n ∧ n.data = x.2 ∧ n.prev = p ∧
        lseg store (some x.1) n.next q d rest := Iff.rfl

/-- Every address traversed by a segment is a live address of the store. -/
theorem lseg_mem_lt {store : List (Node α)} {ps : List (Nat × α)} :
    ∀ {p cur q d}, lseg store p cur q d ps → ∀ x ∈ ps, x.1 < store.length := by
  induction ps with
  | nil => intro p cur q d _ x hx; cases hx
  | cons y rest ih =>
    intro p cur q d h x hx
    obtain ⟨-, n, hget, -, -, hrest⟩ := h
    rcases List.mem_cons.mp hx with rfl | hx
    · obtain ⟨hlt, -⟩ := List.getElem?_eq_some.mp hget
      exact hlt
    · exact ih hrest x hx

/-- A segment only looks at the nodes it traverses: stores agreeing on those
addresses carry the same segments. -/
theorem lseg_congr {store store' : List (Node α)} {ps : List (Nat × α)} :
    ∀ {p cur q d}, (∀ x ∈ ps, store'[x.1]? = store[x.1]?) →
      lseg store p cur q d ps → lseg store' p cur q d ps := by
  induction ps with
  | nil => intro _ _ _ _ _ h; exact h
  | cons y rest ih =>
    intro p cur q d hag h
    obtain ⟨hcur, n, hget, hdata, hprev, hrest⟩ := h
    exact ⟨hcur, n, (hag y (List.mem_cons_self y rest)).trans hget, hdata, hprev,
      ih (fun x hx => hag x (List.mem_cons_of_mem y hx)) hrest⟩

/-- Segments compose and decompose along list append. -/
theorem lseg_append {store : List (Node α)} {ps qs : List (Nat × α)} :
    ∀ {p cur q d}, lseg store p cur q d (ps ++ qs) ↔
      ∃ pm cm, lseg store p cur pm cm ps ∧ lseg store pm cm q d qs := by
  induction ps with
  | nil =>
    intro p cur q d
    constructor
    · intro h; exact ⟨p, cur, ⟨rfl, rfl⟩, h⟩
    · rintro ⟨pm, cm, ⟨rfl, rfl⟩, h⟩; exact h
  | cons y rest ih =>
    intro p cur q d
    constructor
    · rintro ⟨hcur, n, hget, hdata, hprev, hrest⟩
      obtain ⟨pm, cm, h1, h2⟩ := ih.mp hrest
      exact ⟨pm, cm, ⟨hcur, n, hget, hdata, hprev, h1⟩, h2⟩
    · rintro ⟨pm, cm, ⟨hcur, n, hget, hdata, hprev, h1⟩, h2⟩
      exact ⟨hcur, n, hget, hdata, hprev, ih.mpr ⟨pm, cm, h1, h2⟩⟩

/-- A nonempty segment has a concrete exit address. -/
theorem lseg_last_some {store : List (Node α)} {rest : List (Nat × α)} :
    ∀ {x : Nat × α} {p cur q d}, lseg store p cur q d (x :: rest) → ∃ a, q = some a := by
  induction rest with
  | nil => rintro x p cur q d ⟨-, n, -, -, -, hq, -⟩; exact ⟨x.1, hq.symm⟩
  | cons y rest' ih => rintro x p cur q d ⟨-, n, -, -, -, hrest⟩; exact ih hrest

/-- The abstraction relation: the container `l` represents the sequence of
(address, payload) pairs `ps`: its store carries the doubly-linked chain of
`ps` from `head` to `tail`, the `len` counter matches, and the chain visits
pairwise distinct addresses. -/
def ListRepr (l : LinkedList α) (ps : List (Nat × α)) : Prop :=
  lseg l.store none l.head l.tail none ps ∧ l.len = ps.length ∧ (ps.map Prod.fst).Nodup

theorem ListRepr_new : ListRepr (LinkedList.new : LinkedList α) [] :=
  ⟨⟨rfl, rfl⟩, rfl, List.nodup_nil⟩

/-- The spec's first structural invariant: `head` is `None` iff `tail` is
`None` iff `length == 0`, stated as two iffs. -/
def invariantEq (l : LinkedList α) : Prop :=
  (l.head = none ↔ l.tail = none) ∧ (l.head = none ↔ l.len = 0)

theorem ListRepr_invariantEq {l : LinkedList α} {ps : List (Nat × α)}
    (h : ListRepr l ps) : invariantEq l := by
  obtain ⟨hseg, hlen, -⟩ := h
  cases ps with
  | nil =>
    obtain ⟨h1, h2⟩ := hseg
    constructor <;> simp [h2, ← h1, hlen]
  | cons x rest =>
    obtain ⟨ha, -⟩ := id hseg
    obtain ⟨a, hq⟩ := lseg_last_some hseg
    constructor
    · simp [ha, hq]
    · simp [ha, hlen]


/-! ## Operation specifications over the abstraction relation -/

/-- `push` never panics from a represented state and appends its value at a
fresh address (the current store length). -/
theorem push_spec {l : LinkedList α} {ps : List (Nat × α)} (h : ListRepr l ps) (v : α) :
    ∃ l', l.push v = some l' ∧ ListRepr l' (ps ++ [(l.store.length, v)]) := by
  obtain ⟨hseg, hlen, hnd⟩ := h
  rcases List.eq_nil_or_concat ps with rfl | ⟨qs, x, rfl⟩
  · obtain ⟨htail, hhead⟩ := hseg
    refine ⟨{ store := l.store ++ [⟨v, none, none⟩],
              head := some l.store.length,
              tail := some l.store.length,
              len := l.len + 1 }, ?_, ?_, ?_, ?_⟩
    · simp [LinkedList.push, hhead, ← htail]
    · exact ⟨rfl, ⟨v, none, none⟩, List.getElem?_concat_length _ _, rfl, rfl, rfl, rfl⟩
    · simpa using hlen
    · simp
  · simp only [List.concat_eq_append] at hseg hlen hnd ⊢
    obtain ⟨pm, cm, hq, hx⟩ := lseg_append.mp hseg
    obtain ⟨hcm, tn, hget, hdata, hprev, hxq, hxd⟩ := hx
    obtain ⟨hlt, -⟩ := List.getElem?_eq_some.mp hget
    have haddr : x.1 ≠ l.store.length := Nat.ne_of_lt hlt
    have hlt1 : x.1 < (l.store ++ [(⟨v, none, none⟩ : Node α)]).length := by
      simp; omega
    have hndq : (List.map Prod.fst qs).Nodup ∧ x.1 ∉ List.map Prod.fst qs := by
      rw [List.map_append] at hnd
      have h := List.nodup_append.mp hnd
      exact ⟨h.1, by simpa using h.2.2⟩
    have e1 : (l.store ++ [(⟨v, none, none⟩ : Node α)])[x.1]? = some tn := by
      rw [List.getElem?_append_left hlt]; exact hget
    have e2 : ((l.store ++ [(⟨v, none, none⟩ : Node α)]).set x.1
        { tn with next := some l.store.length })[l.store.length]?
          = some ⟨v, none, none⟩ := by
      rw [List.getElem?_set_ne haddr]; exact List.getElem?_concat_length _ _
    refine ⟨{ store := ((l.store ++ [(⟨v, none, none⟩ : Node α)]).set x.1
                { tn with next := some l.store.length }).set l.store.length
                  (⟨v, some x.1, none⟩ : Node α),
              head := l.head,
              tail := some l.store.length,
              len := l.len + 1 }, ?_, ?_, ?_, ?_⟩
    · simp [LinkedList.push, ← hxq, e1, e2]
    · -- the new chain is the old one, with the old tail now linking to the new node
      have hagree : ∀ z ∈ qs, (((l.store ++ [(⟨v, none, none⟩ : Node α)]).set x.1
          { tn with next := some l.store.length }).set l.store.length
            (⟨v, some x.1, none⟩ : Node α))[z.1]? = l.store[z.1]? := by
        intro z hz
        have h1 : z.1 < l.store.length := lseg_mem_lt hseg z (List.mem_append_left _ hz)
        have h2 : x.1 ≠ z.1 := fun e => hndq.2 (e ▸ List.mem_map_of_mem Prod.fst hz)
        rw [List.getElem?_set_ne (Nat.ne_of_lt h1).symm, List.getElem?_set_ne h2,
          List.getElem?_append_left h1]
      refine lseg_append.mpr ⟨some x.1, some l.store.length,
        lseg_append.mpr ⟨pm, cm, lseg_congr hagree hq, ?_⟩, ?_⟩
      · refine ⟨hcm, { tn with next := some l.store.length }, ?_, hdata, hprev, rfl, rfl⟩
        rw [List.getElem?_set_ne haddr.symm, List.getElem?_set_eq_of_lt _ hlt1]
      · refine ⟨rfl, ⟨v, some x.1, none⟩, ?_, rfl, rfl, rfl, rfl⟩
        rw [List.getElem?_set_eq_of_lt]
        simp
    · simpa using hlen
    · have hfresh : l.store.length ∉ List.map Prod.fst (qs ++ [x]) := by
        intro hmem
        obtain ⟨z, hz, hz2⟩ := List.mem_map.mp hmem
        have := lseg_mem_lt hseg z hz
        omega
      rw [List.map_append]
      exact List.nodup_append.mpr ⟨hnd, by simp, by simpa using hfresh⟩

/-- `push_front` never panics from a represented state and prepends its value
at a fresh address (the current store length). -/
theorem push_front_spec {l : LinkedList α} {ps : List (Nat × α)} (h : ListRepr l ps) (v : α) :
    ∃ l', l.push_front v = some l' ∧ ListRepr l' ((l.store.length, v) :: ps) := by
  obtain ⟨hseg, hlen, hnd⟩ := h
  cases ps with
  | nil =>
    obtain ⟨htail, hhead⟩ := hseg
    refine ⟨{ store := l.store ++ [⟨v, none, none⟩],
              head := some l.store.length,
              tail := some l.store.length,
              len := l.len + 1 }, ?_, ?_, ?_, ?_⟩
    · simp [LinkedList.push_front, hhead, ← htail]
    · exact ⟨rfl, ⟨v, none, none⟩, List.getElem?_concat_length _ _, rfl, rfl, rfl, rfl⟩
    · simpa using hlen
    · simp
  | cons x rest =>
    obtain ⟨hhd, hn, hget, hdata, hprev, hrest⟩ := hseg
    obtain ⟨hlt, -⟩ := List.getElem?_eq_some.mp hget
    have haddr : x.1 ≠ l.store.length := Nat.ne_of_lt hlt
    have hlt1 : x.1 < (l.store ++ [(⟨v, none, none⟩ : Node α)]).length := by
      simp; omega
    have hnd' : (x.1 :: List.map Prod.fst rest).Nodup := by simpa using hnd
    have hndc := List.nodup_cons.mp hnd'
    have e1 : (l.store ++ [(⟨v, none, none⟩ : Node α)])[x.1]? = some hn := by
      rw [List.getElem?_append_left hlt]; exact hget
    have e2 : ((l.store ++ [(⟨v, none, none⟩ : Node α)]).set x.1
        { hn with prev := some l.store.length })[l.store.length]?
          = some ⟨v, none, none⟩ := by
      rw [List.getElem?_set_ne haddr]; exact List.getElem?_concat_length _ _
    refine ⟨{ store := ((l.store ++ [(⟨v, none, none⟩ : Node α)]).set x.1
                { hn with prev := some l.store.length }).set l.store.length
                  (⟨v, none, some x.1⟩ : Node α),
              head := some l.store.length,
              tail := l.tail,
              len := l.len + 1 }, ?_, ?_, ?_, ?_⟩
    · simp [LinkedList.push_front, hhd, e1, e2]
    · refine ⟨rfl, ⟨v, none, some x.1⟩, ?_, rfl, rfl, ?_⟩
      · rw [List.getElem?_set_eq_of_lt]
        simp
      · refine ⟨rfl, { hn with prev := some l.store.length }, ?_, hdata, rfl, ?_⟩
        · rw [List.getElem?_set_ne haddr.symm, List.getElem?_set_eq_of_lt _ hlt1]
        · refine lseg_congr ?_ hrest
          intro z hz
          have h1 : z.1 < l.store.length := lseg_mem_lt hrest z hz
          have h2 : x.1 ≠ z.1 := fun e => hndc.1 (e ▸ List.mem_map_of_mem Prod.fst hz)
          rw [List.getElem?_set_ne (Nat.ne_of_lt h1).symm, List.getElem?_set_ne h2,
            List.getElem?_append_left h1]
    · simpa using hlen
    · have hfresh : l.store.length ∉ List.map Prod.fst (x :: rest) := by
        intro hmem
        obtain ⟨z, hz, hz2⟩ := List.mem_map.mp hmem
        rcases List.mem_cons.mp hz with rfl | hz'
        · omega
        · have := lseg_mem_lt hrest z hz'
          omega
      simpa using List.nodup_cons.mpr ⟨hfresh, hnd⟩

/-- On the empty list both pop operations return `None` and leave the whole
state untouched. -/
theorem pop_empty {l : LinkedList α} (h : ListRepr l ([] : List (Nat × α))) :
    l.pop = some (none, l) ∧ l.pop_front = some (none, l) := by
  obtain ⟨⟨htail, hhead⟩, -, -⟩ := h
  constructor <;> simp [LinkedList.pop, LinkedList.pop_front, hhead, ← htail]

/-- The bug at the heart of this development: popping the only element, from
either end, panics.  `pop` sets `self.tail` to the removed node's `prev`,
which is `None`, and immediately unwraps it (`pop_front` symmetrically with
`next`); the code never special-cases the singleton list. -/
theorem pop_single {l : LinkedList α} {x : Nat × α} (h : ListRepr l [x]) :
    l.pop = none ∧ l.pop_front = none := by
  obtain ⟨⟨hhd, n, hget, hdata, hprev, hq, hd⟩, -, -⟩ := h
  constructor
  · simp [LinkedList.pop, hhd, ← hq, hget, hprev]
  · simp [LinkedList.pop_front, hhd, hget, hd]

/-- With at least two elements, `pop` completes: it returns the last payload,
the chain shrinks by its last pair, the new tail's `next` is cleared — but
the removed node itself still carries its `prev` link to the old neighbor
(only its `next` was already `None` because it was the tail). -/
theorem pop_spec {l : LinkedList α} {ps : List (Nat × α)} {x y : Nat × α}
    (h : ListRepr l (ps ++ [x, y])) :
    ∃ l', l.pop = some (some y.2, l') ∧ ListRepr l' (ps ++ [x]) ∧
      l'.store[y.1]? = some ⟨y.2, some x.1, none⟩ ∧
      ∃ xn', l'.store[x.1]? = some xn' ∧ xn'.next = none := by
  obtain ⟨hseg, hlen, hnd⟩ := h
  have hseg' : lseg l.store none l.head l.tail none ((ps ++ [x]) ++ [y]) := by
    simpa using hseg
  obtain ⟨pm, cm, hfront, hy⟩ := lseg_append.mp hseg'
  obtain ⟨hcm, yn, hgety, hdatay, hprevy, hyq, hyd⟩ := hy
  obtain ⟨pm2, cm2, hps, hx⟩ := lseg_append.mp hfront
  obtain ⟨hcm2, xn, hgetx, hdatax, hprevx, hxq, hxd⟩ := hx
  obtain ⟨hltx, -⟩ := List.getElem?_eq_some.mp hgetx
  obtain ⟨hlty, -⟩ := List.getElem?_eq_some.mp hgety
  have hprevy' : yn.prev = some x.1 := hprevy.trans hxq.symm
  have hnd' : (List.map Prod.fst ps ++ [x.1, y.1]).Nodup := by simpa using hnd
  obtain ⟨hndps, hnd2, hdisj⟩ := List.nodup_append.mp hnd'
  have hxy : x.1 ≠ y.1 := by
    intro e
    exact (List.nodup_cons.mp hnd2).1 (by simp [e])
  have hxps : x.1 ∉ List.map Prod.fst ps := fun hmem => hdisj hmem (by simp)
  refine ⟨{ store := l.store.set x.1 { xn with next := none },
            head := l.head,
            tail := some x.1,
            len := l.len - 1 }, ?_, ⟨?_, ?_, ?_⟩, ?_, ?_⟩
  · simp [LinkedList.pop, ← hyq, hgety, hprevy', hgetx, hdatay]
  · refine lseg_append.mpr ⟨pm2, cm2, lseg_congr ?_ hps,
      hcm2, { xn with next := none }, List.getElem?_set_eq_of_lt _ hltx,
      hdatax, hprevx, rfl, rfl⟩
    intro z hz
    have h2 : x.1 ≠ z.1 := fun e => hxps (e ▸ List.mem_map_of_mem Prod.fst hz)
    exact List.getElem?_set_ne h2
  · simp at hlen ⊢
    omega
  · rw [List.map_append]
    exact List.nodup_append.mpr ⟨hndps, by simp, by simpa using hxps⟩
  · rw [List.getElem?_set_ne hxy]
    rw [hgety]
    rcases yn with ⟨d, p, nx⟩
    simp only at hdatay hprevy' hyd
    rw [hdatay, hprevy', hyd]
  · exact ⟨{ xn with next := none }, List.getElem?_set_eq_of_lt _ hltx, rfl⟩

/-- With at least two elements, `pop_front` completes: it returns the first
payload, the chain loses its first pair, the new head's `prev` is cleared —
but the removed node itself still carries its `next` link to the old neighbor
(only its `prev` was already `None` because it was the head). -/
theorem pop_front_spec {l : LinkedList α} {ps : List (Nat × α)} {x y : Nat × α}
    (h : ListRepr l (x :: y :: ps)) :
    ∃ l', l.pop_front = some (some x.2, l') ∧ ListRepr l' (y :: ps) ∧
      l'.store[x.1]? = some ⟨x.2, none, some y.1⟩ ∧
      ∃ yn', l'.store[y.1]? = some yn' ∧ yn'.prev = none := by
  obtain ⟨hseg, hlen, hnd⟩ := h
  obtain ⟨hhd, xn, hgetx, hdatax, hprevx, hrest⟩ := hseg
  obtain ⟨hcy, yn, hgety, hdatay, hprevy, hrest2⟩ := hrest
  obtain ⟨hltx, -⟩ := List.getElem?_eq_some.mp hgetx
  obtain ⟨hlty, -⟩ := List.getElem?_eq_some.mp hgety
  have hnd' : (x.1 :: y.1 :: List.map Prod.fst ps).Nodup := by simpa using hnd
  obtain ⟨hx1, hndt⟩ := List.nodup_cons.mp hnd'
  obtain ⟨hy1, hndps⟩ := List.nodup_cons.mp hndt
  have hyx : y.1 ≠ x.1 := fun e => hx1 (by simp [e])
  refine ⟨{ store := l.store.set y.1 { yn with prev := none },
            head := some y.1,
            tail := l.tail,
            len := l.len - 1 }, ?_, ⟨?_, ?_, ?_⟩, ?_, ?_⟩
  · simp [LinkedList.pop_front, hhd, hgetx, hcy, hgety, hdatax]
  · refine ⟨rfl, { yn with prev := none }, List.getElem?_set_eq_of_lt _ hlty,
      hdatay, rfl, lseg_congr ?_ hrest2⟩
    intro z hz
    have h2 : y.1 ≠ z.1 := fun e => hy1 (e ▸ List.mem_map_of_mem Prod.fst hz)
    exact List.getElem?_set_ne h2
  · simp at hlen ⊢
    omega
  · simpa using hndt
  · rw [List.getElem?_set_ne hyx]
    rw [hgetx]
    rcases xn with ⟨d, p, nx⟩
    simp only at hdatax hprevx hcy
    rw [hdatax, hprevx, hcy]
  · exact ⟨{ yn with prev := none }, List.getElem?_set_eq_of_lt _ hlty, rfl⟩

/-- Traversing a chain that ends in a `none` cursor collects exactly the
chain's payloads, in chain order, and leaves the cursor exhausted, for any
sufficient fuel. -/
theorem collect_spec {store : List (Node α)} {ps : List (Nat × α)} :
    ∀ {p cur q : Option Nat}, lseg store p cur q none ps → ∀ {m : Nat}, ps.length ≤ m →
      LinkedListIter.collect m ⟨store, cur⟩ =
        some (List.map Prod.snd ps, ⟨store, none⟩) := by
  induction ps with
  | nil =>
    intro p cur q h m _
    obtain ⟨-, hcur⟩ := h
    subst hcur
    cases m <;> simp [LinkedListIter.collect, LinkedListIter.next]
  | cons x rest ih =>
    intro p cur q h m hm
    obtain ⟨hcur, n, hget, hdata, hprev, hrest⟩ := h
    cases m with
    | zero => simp at hm
    | succ f =>
      have hf : rest.length ≤ f := by simpa using hm
      subst hcur
      simp [LinkedListIter.collect, LinkedListIter.next, hget, ih hrest hf, hdata]

/-- Pushing a whole sequence never panics from a represented state and
appends its values, in order, to the abstract list. -/
theorem pushAll_spec (vs : List α) : ∀ {l : LinkedList α} {ps : List (Nat × α)},
    ListRepr l ps →
    ∃ l' qs, l.pushAll vs = some l' ∧ ListRepr l' (ps ++ qs) ∧
      List.map Prod.snd qs = vs := by
  induction vs with
  | nil => intro l ps h; exact ⟨l, [], rfl, by simpa using h, rfl⟩
  | cons v rest ih =>
    intro l ps h
    obtain ⟨l1, hpush, h1⟩ := push_spec h v
    obtain ⟨l', qs, hall, h2, hmap⟩ := ih h1
    refine ⟨l', (l.store.length, v) :: qs, ?_, ?_, ?_⟩
    · simp [LinkedList.pushAll, hpush, hall]
    · simpa [List.append_assoc] using h2
    · simp [hmap]

/-- Pushing a whole sequence at the front never panics and prepends the
values, so the abstract list carries them in reverse order. -/
theorem pushFrontAll_spec (vs : List α) : ∀ {l : LinkedList α} {ps : List (Nat × α)},
    ListRepr l ps →
    ∃ l' qs, l.pushFrontAll vs = some l' ∧ ListRepr l' (qs ++ ps) ∧
      List.map Prod.snd qs = vs.reverse := by
  induction vs with
  | nil => intro l ps h; exact ⟨l, [], rfl, by simpa using h, rfl⟩
  | cons v rest ih =>
    intro l ps h
    obtain ⟨l1, hpush, h1⟩ := push_front_spec h v
    obtain ⟨l', qs, hall, h2, hmap⟩ := ih h1
    refine ⟨l', qs ++ [(l.store.length, v)], ?_, ?_, ?_⟩
    · simp [LinkedList.pushFrontAll, hpush, hall]
    · simpa [List.append_assoc] using h2
    · simp [hmap]

/-- Every state the public API can construct represents some abstract list:
the structural invariants are maintained by every completed operation. -/
theorem reachable_repr {l : LinkedList α} (h : Reachable l) :
    ∃ ps, ListRepr l ps := by
  induction h with
  | new => exact ⟨[], ListRepr_new⟩
  | push h hop ih =>
    obtain ⟨ps, hr⟩ := ih
    obtain ⟨l'', heq, hr'⟩ := push_spec hr _
    rw [heq] at hop
    simp only [Option.some.injEq] at hop
    exact ⟨_, hop ▸ hr'⟩
  | push_front h hop ih =>
    obtain ⟨ps, hr⟩ := ih
    obtain ⟨l'', heq, hr'⟩ := push_front_spec hr _
    rw [heq] at hop
    simp only [Option.some.injEq] at hop
    exact ⟨_, hop ▸ hr'⟩
  | pop h hop ih =>
    obtain ⟨ps, hr⟩ := ih
    rcases List.eq_nil_or_concat ps with rfl | ⟨init, y, rfl⟩
    · have he := (pop_empty hr).1
      rw [he] at hop
      simp only [Option.some.injEq, Prod.mk.injEq] at hop
      exact ⟨[], hop.2 ▸ hr⟩
    · rcases List.eq_nil_or_concat init with rfl | ⟨ps2, x, rfl⟩
      · have he := (pop_single hr).1
        simp only [List.concat_eq_append, List.nil_append] at hr he
        rw [he] at hop
        cases hop
      · simp only [List.concat_eq_append, List.append_assoc, List.singleton_append] at hr
        obtain ⟨l'', heq, hr', -, -⟩ := pop_spec hr
        rw [heq] at hop
        simp only [Option.some.injEq, Prod.mk.injEq] at hop
        exact ⟨_, hop.2 ▸ hr'⟩
  | pop_front h hop ih =>
    obtain ⟨ps, hr⟩ := ih
    match ps, hr with
    | [], hr =>
      have he := (pop_empty hr).2
      rw [he] at hop
      simp only [Option.some.injEq, Prod.mk.injEq] at hop
      exact ⟨[], hop.2 ▸ hr⟩
    | [x], hr =>
      have he := (pop_single hr).2
      rw [he] at hop
      cases hop
    | x :: y :: rest, hr =>
      obtain ⟨l'', heq, hr', -, -⟩ := pop_front_spec hr
      rw [heq] at hop
      simp only [Option.some.injEq, Prod.mk.injEq] at hop
      exact ⟨_, hop.2 ▸ hr'⟩

/-- Both pops return `None` and change nothing whenever `is_empty` holds
(its condition is exactly the guard both operations test). -/
theorem pop_eq_of_is_empty {l : LinkedList α} (he : l.is_empty = true) :
    l.pop = some (none, l) ∧ l.pop_front = some (none, l) := by
  have he' : (l.head.isNone && l.tail.isNone) = true := he
  constructor <;> simp [LinkedList.pop, LinkedList.pop_front, he']

theorem popN_eq_of_is_empty {l : LinkedList α} (he : l.is_empty = true) :
    ∀ n, l.popN n = some (List.replicate n none, l) := by
  intro n
  induction n with
  | zero => rfl
  | succ k ih =>
    simp [LinkedList.popN, (pop_eq_of_is_empty he).1, ih, List.replicate_succ]

theorem popFrontN_eq_of_is_empty {l : LinkedList α} (he : l.is_empty = true) :
    ∀ n, l.popFrontN n = some (List.replicate n none, l) := by
  intro n
  induction n with
  | zero => rfl
  | succ k ih =>
    simp [LinkedList.popFrontN, (pop_eq_of_is_empty he).2, ih, List.replicate_succ]

/-! ## Claims -/

/-- C1: the claim says that on a one-element container `pop()` (and
`pop_front()`) returns `Some` of the payload and leaves `head = None`,
`tail = None`, `len = 0`.  The code instead panics on both calls: after one
`push` of `7` into a fresh container, `pop` takes `self.tail` to the removed
node's `None` prev and unwraps it, and `pop_front` does the same with `next`
— both evaluate to the panic result `none` here. -/
theorem claim_C1_pop_singleton :
    (LinkedList.new (α := Nat)).push 7 =
      some { store := [{ data := 7, prev := none, next := none }],
             head := some 0, tail := some 0, len := 1 } ∧
    ({ store := [{ data := 7, prev := none, next := none }],
       head := some 0, tail := some 0, len := 1 } : LinkedList Nat).pop = none ∧
    ({ store := [{ data := 7, prev := none, next := none }],
       head := some 0, tail := some 0, len := 1 } : LinkedList Nat).pop_front = none :=
  ⟨rfl, rfl, rfl⟩

/-- C2: the claim says no public operation panics on any well-formed
(API-constructible) container.  The one-element container is reachable —
`new()` followed by one completed `push` — yet `pop` on it panics (evaluates
to the panic result `none`). -/
theorem claim_C2_reachable_pop_panics :
    Reachable ({ store := [{ data := 3, prev := none, next := none }],
                 head := some 0, tail := some 0, len := 1 } : LinkedList Nat) ∧
    ({ store := [{ data := 3, prev := none, next := none }],
       head := some 0, tail := some 0, len := 1 } : LinkedList Nat).pop = none ∧
    ({ store := [{ data := 3, prev := none, next := none }],
       head := some 0, tail := some 0, len := 1 } : LinkedList Nat).pop_front = none :=
  ⟨Reachable.push Reachable.new rfl, rfl, rfl⟩

/-- C3: on an empty container `pop` and `pop_front` return `None`, leave the
whole state (in particular `head`, `tail`, `len`) unchanged, and keep doing so
under any number of consecutive calls. -/
theorem claim_C3_pop_empty_idempotent {l : LinkedList α} (he : l.is_empty = true) :
    l.pop = some (none, l) ∧ l.pop_front = some (none, l) ∧
    ∀ n, l.popN n = some (List.replicate n none, l) ∧
      l.popFrontN n = some (List.replicate n none, l) :=
  ⟨(pop_eq_of_is_empty he).1, (pop_eq_of_is_empty he).2,
    fun n => ⟨popN_eq_of_is_empty he n, popFrontN_eq_of_is_empty he n⟩⟩

/-- Witness for C3 at the concrete empty container and three consecutive
calls. -/
theorem claim_C3_witness :
    (LinkedList.new (α := Nat)).pop = some (none, LinkedList.new) ∧
    (LinkedList.new (α := Nat)).pop_front = some (none, LinkedList.new) ∧
    (LinkedList.new (α := Nat)).popN 3 = some ([none, none, none], LinkedList.new) ∧
    (LinkedList.new (α := Nat)).popFrontN 3 = some ([none, none, none], LinkedList.new) := by
  obtain ⟨h1, h2, h3⟩ := claim_C3_pop_empty_idempotent (l := LinkedList.new (α := Nat)) rfl
  exact ⟨h1, h2, by simpa using (h3 3).1, by simpa using (h3 3).2⟩

/-- C7: the claim requires that after pushing `v0..v(n-1)` into a new
container, `n` successive `pop()` calls yield `v(n-1) … v0` (and `n`
`pop_front()` calls yield `v0 … v(n-1)`).  Already at `n = 1` both rounds
panic: after pushing the single value `5`, the one `pop` (resp. `pop_front`)
hits the singleton-pop unwrap bug and evaluates to the panic result `none`
instead of yielding `Some 5`. -/
theorem claim_C7_roundtrip_panics :
    (LinkedList.new (α := Nat)).pushAll [5] =
      some { store := [{ data := 5, prev := none, next := none }],
             head := some 0, tail := some 0, len := 1 } ∧
    ({ store := [{ data := 5, prev := none, next := none }],
       head := some 0, tail := some 0, len := 1 } : LinkedList Nat).popN 1 = none ∧
    ({ store := [{ data := 5, prev := none, next := none }],
       head := some 0, tail := some 0, len := 1 } : LinkedList Nat).popFrontN 1 = none :=
  ⟨rfl, rfl, rfl⟩

/-- C4: the predicate (`head = None` iff `tail = None` iff `len = 0`) holds
for the container returned by `new`, holds in every state the public API can
construct, and is preserved by every completed public operation from any such
state. -/
theorem claim_C4_invariant :
    invariantEq (LinkedList.new : LinkedList α) ∧
    ∀ l : LinkedList α, Reachable l →
      invariantEq l ∧
      (∀ (v : α) l', l.push v = some l' → invariantEq l') ∧
      (∀ (v : α) l', l.push_front v = some l' → invariantEq l') ∧
      (∀ r l', l.pop = some (r, l') → invariantEq l') ∧
      (∀ r l', l.pop_front = some (r, l') → invariantEq l') := by
  refine ⟨ListRepr_invariantEq ListRepr_new, fun l h => ?_⟩
  obtain ⟨ps, hr⟩ := reachable_repr h
  refine ⟨ListRepr_invariantEq hr, ?_, ?_, ?_, ?_⟩
  · intro v l' hop
    obtain ⟨ps', hr'⟩ := reachable_repr (Reachable.push h hop)
    exact ListRepr_invariantEq hr'
  · intro v l' hop
    obtain ⟨ps', hr'⟩ := reachable_repr (Reachable.push_front h hop)
    exact ListRepr_invariantEq hr'
  · intro r l' hop
    obtain ⟨ps', hr'⟩ := reachable_repr (Reachable.pop h hop)
    exact ListRepr_invariantEq hr'
  · intro r l' hop
    obtain ⟨ps', hr'⟩ := reachable_repr (Reachable.pop_front h hop)
    exact ListRepr_invariantEq hr'

/-- Witness for C4: the invariant at `new` and after the completed `push` of
`7` into `new`. -/
theorem claim_C4_witness :
    invariantEq (LinkedList.new : LinkedList Nat) ∧
    invariantEq ({ store := [{ data := 7, prev := none, next := none }],
                   head := some 0, tail := some 0, len := 1 } : LinkedList Nat) :=
  ⟨claim_C4_invariant.1,
    (claim_C4_invariant.2 LinkedList.new Reachable.new).2.1 7 _ rfl⟩

/-- C5: pushing any sequence of `N` values with `push` into a new container
always completes; afterwards `len` is `N` and a full iteration yields exactly
those `N` values in insertion order, ending exhausted. -/
theorem claim_C5_push_len_iter_order (vs : List α) :
    ∃ l', (LinkedList.new (α := α)).pushAll vs = some l' ∧
      l'.len = vs.length ∧
      l'.iter.collect vs.length = some (vs, ⟨l'.store, none⟩) := by
  obtain ⟨l', qs, hall, hr, hmap⟩ := pushAll_spec vs (ListRepr_new (α := α))
  simp only [List.nil_append] at hr
  have hql : qs.length = vs.length := by rw [← hmap]; simp
  refine ⟨l', hall, ?_, ?_⟩
  · rw [hr.2.1, hql]
  · have := collect_spec hr.1 (m := vs.length) (le_of_eq hql)
    rw [hmap] at this
    simpa [LinkedList.iter] using this

/-- C6: pushing any sequence of `N` values with `push_front` into a new
container always completes, and a full iteration yields exactly those `N`
values in the reverse of insertion order, ending exhausted. -/
theorem claim_C6_push_front_reverse_order (vs : List α) :
    ∃ l', (LinkedList.new (α := α)).pushFrontAll vs = some l' ∧
      l'.iter.collect vs.length = some (vs.reverse, ⟨l'.store, none⟩) := by
  obtain ⟨l', qs, hall, hr, hmap⟩ := pushFrontAll_spec vs (ListRepr_new (α := α))
  simp only [List.append_nil] at hr
  have hql : qs.length = vs.length := by
    have := congrArg List.length hmap
    simpa using this
  refine ⟨l', hall, ?_⟩
  have := collect_spec hr.1 (m := vs.length) (le_of_eq hql)
  rw [hmap] at this
  simpa [LinkedList.iter] using this

/-- C8: the iterator is fused and finite.  Once `next` returns `None` the
iterator is unchanged and every later `next` returns `None` again; and for a
container representing a chain, a full traversal yields exactly the chain's
payloads from head to tail (for any sufficient number of calls) and ends with
an exhausted cursor. -/
theorem claim_C8_iter_fused_finite :
    (∀ (it it' : LinkedListIter α), it.next = some (none, it') →
      it' = it ∧ it'.next = some (none, it')) ∧
    (∀ (l : LinkedList α) (ps : List (Nat × α)), ListRepr l ps →
      ∀ m, ps.length ≤ m →
        l.iter.collect m = some (List.map Prod.snd ps, ⟨l.store, none⟩)) := by
  constructor
  · intro it it' h
    cases hc : it.cursor with
    | none =>
      simp only [LinkedListIter.next, hc, Option.some.injEq, Prod.mk.injEq,
        true_and] at h
      subst h
      constructor
      · rfl
      · simp [LinkedListIter.next, hc]
    | some a =>
      cases hg : it.store[a]? with
      | none => simp [LinkedListIter.next, hc, hg] at h
      | some n => simp [LinkedListIter.next, hc, hg] at h
  · intro l ps hr m hm
    simpa [LinkedList.iter] using collect_spec hr.1 hm

/-- Witness for C8: the exhausted empty iterator stays exhausted, and a
one-element container's iterator yields exactly its payload. -/
theorem claim_C8_witness :
    (({ store := [], cursor := none } : LinkedListIter Nat) =
        { store := [], cursor := none } ∧
      ({ store := [], cursor := none } : LinkedListIter Nat).next =
        some (none, { store := [], cursor := none })) ∧
    ({ store := [{ data := 7, prev := none, next := none }], head := some 0,
        tail := some 0, len := 1 } : LinkedList Nat).iter.collect 1 =
      some ([7], { store := [{ data := 7, prev := none, next := none }],
                   cursor := none }) := by
  constructor
  · exact claim_C8_iter_fused_finite.1 _ _ rfl
  · have hrepr : ListRepr ({ store := [{ data := 7, prev := none, next := none }],
                             head := some 0, tail := some 0,
                             len := 1 } : LinkedList Nat) [(0, 7)] :=
      ⟨⟨rfl, ⟨7, none, none⟩, rfl, rfl, rfl, rfl, rfl⟩, rfl, by simp⟩
    simpa using claim_C8_iter_fused_finite.2 _ [(0, 7)] hrepr 1 (by simp)

/-- C9 counterexample: the claim says a removed end node has both its `prev`
and `next` links set to `None` as part of the removal.  Pushing `0` then `1`
and popping removes the node at address `1`, yet that node still carries
`prev = some 0` — the code never touches the removed node's own links. -/
theorem claim_C9_counterexample :
    (LinkedList.new (α := Nat)).pushAll [0, 1] =
      some { store := [{ data := 0, prev := none, next := some 1 },
                       { data := 1, prev := some 0, next := none }],
             head := some 0, tail := some 1, len := 2 } ∧
    ({ store := [{ data := 0, prev := none, next := some 1 },
                 { data := 1, prev := some 0, next := none }],
       head := some 0, tail := some 1, len := 2 } : LinkedList Nat).pop =
      some (some 1,
        { store := [{ data := 0, prev := none, next := none },
                    { data := 1, prev := some 0, next := none }],
          head := some 0, tail := some 0, len := 1 }) ∧
    ({ store := [{ data := 0, prev := none, next := none },
                 { data := 1, prev := some 0, next := none }],
       head := some 0, tail := some 0, len := 1 } : LinkedList Nat).store[1]? =
      some { data := 1, prev := some 0, next := none } ∧
    ({ data := 1, prev := some 0, next := none } : Node Nat).prev ≠ none :=
  ⟨rfl, rfl, rfl, by decide⟩

/-- C9 (amended): when `pop` removes the tail of a container with at least
two elements, the removed node is unlinked from the chain — the new tail's
`next` is set to `None`, and the removed node's `next` is `None` (it was the
tail) — but the removed node's own `prev` link is left pointing at its former
neighbor, not set to `None`; symmetrically for `pop_front`, where the removed
node keeps its `next` link to the former second node. -/
theorem claim_C9_detach_links :
    (∀ (l : LinkedList α) (ps : List (Nat × α)) (x y : Nat × α),
      ListRepr l (ps ++ [x, y]) →
      ∃ l', l.pop = some (some y.2, l') ∧
        l'.store[y.1]? = some ⟨y.2, some x.1, none⟩ ∧
        ∃ xn', l'.store[x.1]? = some xn' ∧ xn'.next = none) ∧
    (∀ (l : LinkedList α) (ps : List (Nat × α)) (x y : Nat × α),
      ListRepr l (x :: y :: ps) →
      ∃ l', l.pop_front = some (some x.2, l') ∧
        l'.store[x.1]? = some ⟨x.2, none, some y.1⟩ ∧
        ∃ yn', l'.store[y.1]? = some yn' ∧ yn'.prev = none) := by
  constructor
  · intro l ps x y h
    obtain ⟨l', h1, -, h3, h4⟩ := pop_spec h
    exact ⟨l', h1, h3, h4⟩
  · intro l ps x y h
    obtain ⟨l', h1, -, h3, h4⟩ := pop_front_spec h
    exact ⟨l', h1, h3, h4⟩

/-- Witness for the amended C9 at the concrete two-element container holding
`0` then `1`. -/
theorem claim_C9_witness :
    ∃ l', ({ store := [{ data := 0, prev := none, next := some 1 },
                       { data := 1, prev := some 0, next := none }],
             head := some 0, tail := some 1, len := 2 } : LinkedList Nat).pop =
        some (some 1, l') ∧
      l'.store[1]? = some { data := 1, prev := some 0, next := none } ∧
      ∃ xn', l'.store[0]? = some xn' ∧ xn'.next = none :=
  claim_C9_detach_links.1 _ [] (0, 0) (1, 1)
    ⟨⟨rfl, ⟨0, none, some 1⟩, rfl, rfl, rfl,
      rfl, ⟨1, some 0, none⟩, rfl, rfl, rfl, rfl, rfl⟩, rfl, by simp⟩

/-- C10: `into_iter` is by definition `iter`, so the consuming and the
borrowing iterator of the same container state are the same iterator and
yield identical sequences under any number of `next` steps. -/
theorem claim_C10_into_iter_eq_iter (l : LinkedList α) :
    l.into_iter = l.iter ∧ ∀ n, l.into_iter.collect n = l.iter.collect n :=
  ⟨rfl, fun _ => rfl⟩

/-- Witness for C5 at the concrete sequence `[10, 20, 30]`. -/
theorem claim_C5_witness :
    ∃ l', (LinkedList.new (α := Nat)).pushAll [10, 20, 30] = some l' ∧
      l'.len = 3 ∧ l'.iter.collect 3 = some ([10, 20, 30], ⟨l'.store, none⟩) := by
  simpa using claim_C5_push_len_iter_order [10, 20, 30]

/-- Witness for C6 at the concrete sequence `[1, 2, 3]`. -/
theorem claim_C6_witness :
    ∃ l', (LinkedList.new (α := Nat)).pushFrontAll [1, 2, 3] = some l' ∧
      l'.iter.collect 3 = some ([3, 2, 1], ⟨l'.store, none⟩) := by
  simpa using claim_C6_push_front_reverse_order [1, 2, 3]

/-- Witness for C10 at the empty container and two steps of iteration. -/
theorem claim_C10_witness :
    (LinkedList.new (α := Nat)).into_iter = (LinkedList.new (α := Nat)).iter ∧
    (LinkedList.new (α := Nat)).into_iter.collect 2 =
      (LinkedList.new (α := Nat)).iter.collect 2 :=
  ⟨(claim_C10_into_iter_eq_iter LinkedList.new).1,
    (claim_C10_into_iter_eq_iter LinkedList.new).2 2⟩
